import Mathlib

/-!
Verification of the temporal-alignment core of the diarization/transcript
merging script. Time values are modelled as exact rationals; texts as
Lean strings and lists of characters. Each definition mirrors one function
of the source module.
-/

namespace MergeDiarization

/-- A speaker-labeled time interval. Used both for raw diarization
segments and for coalesced runs, which share the same representation
in the source (a triple of start, end, speaker). -/
structure Segment where
  start : ℚ
  stop : ℚ
  speaker : String
  deriving DecidableEq

/-- A transcript caption segment: a time interval plus raw text. -/
structure TranscriptSeg where
  start : ℚ
  stop : ℚ
  text : String
  deriving DecidableEq

/-- A finished output block: a speaker id and whitespace-normalized text. -/
structure Block where
  speaker : String
  text : List Char
  deriving DecidableEq

/-- Interval-model overlap: length of the intersection, clamped at zero. -/
def overlap (ss se : ℚ) (r : Segment) : ℚ :=
  max 0 (min se r.stop - max ss r.start)

/-- Raw (unclamped) intersection length, as computed inside the scan loop. -/
def rawOv (ss se : ℚ) (r : Segment) : ℚ :=
  min se r.stop - max ss r.start

/-- The loop body of join_consecutive_speaker_intervals: carries the open
accumulator (current_start, current_end, current_speaker) across the
remaining segments and emits closed runs. -/
def joinLoop (cs ce : ℚ) (csp : String) : List Segment → List Segment
  | [] => [⟨cs, ce, csp⟩]
  | s :: rest =>
    if s.speaker = csp then joinLoop cs (max ce s.stop) csp rest
    else ⟨cs, ce, csp⟩ :: joinLoop s.start s.stop s.speaker rest

/-- join_consecutive_speaker_intervals: merge consecutive segments from the
same speaker into maximal runs, extending the end with a running max. -/
def join_consecutive_speaker_intervals : List Segment → List Segment
  | [] => []
  | s :: rest => joinLoop s.start s.stop s.speaker rest

/-- The scan loop of find_speaker_for_interval: folds the pair
(best_speaker, max_intersection) over the diarization runs, updating only
on a strictly larger positive intersection. -/
def findLoop (ss se : ℚ) : List Segment → String × ℚ → String × ℚ
  | [], acc => acc
  | r :: rest, (best, maxI) =>
    let istart := max ss r.start
    let iend := min se r.stop
    if istart < iend then
      if iend - istart > maxI then findLoop ss se rest (r.speaker, iend - istart)
      else findLoop ss se rest (best, maxI)
    else findLoop ss se rest (best, maxI)

/-- Maximum end time over a nonempty run list (max of seg end for all segs);
zero for the empty list, where the source never evaluates it. -/
def lastEnd : List Segment → ℚ
  | [] => 0
  | r :: rs => rs.foldl (fun a q => max a q.stop) r.stop

/-- find_speaker_for_interval: best-overlap resolution with the trailing
fallback to the last run's speaker when the transcript segment starts at or
after the end of all diarization data. -/
def find_speaker_for_interval (ss se : ℚ) (runs : List Segment) : String :=
  let p := findLoop ss se runs ("UNKNOWN", 0)
  match runs with
  | [] => p.1
  | r0 :: rs =>
    if p.1 = "UNKNOWN" then
      if lastEnd (r0 :: rs) ≤ ss then ((r0 :: rs).getLast (List.cons_ne_nil r0 rs)).speaker
      else p.1
    else p.1

/-- Python str.strip: drop whitespace from both ends of a character list. -/
def pyStrip (s : List Char) : List Char :=
  ((s.dropWhile Char.isWhitespace).reverse.dropWhile Char.isWhitespace).reverse

/-- Helper for pySplit: accumulates the current word (reversed) while
scanning; closes the word at each whitespace character. -/
def splitAux : List Char → List Char → List (List Char)
  | [], acc => if acc = [] then [] else [acc.reverse]
  | c :: cs, acc =>
    if c.isWhitespace then
      if acc = [] then splitAux cs [] else acc.reverse :: splitAux cs []
    else splitAux cs (c :: acc)

/-- Python str.split() with no argument: maximal whitespace-free words. -/
def pySplit (s : List Char) : List (List Char) :=
  splitAux s []

/-- Python sep.join for a single-space separator. -/
def joinSpace : List (List Char) → List Char
  | [] => []
  | [x] => x
  | x :: y :: rest => x ++ ' ' :: joinSpace (y :: rest)

/-- The emission-time cleanup in merge: join the buffered texts with single
spaces, then re-split on whitespace and re-join with single spaces. -/
def cleanup (buf : List (List Char)) : List Char :=
  joinSpace (pySplit (joinSpace buf))

/-- Close a pending buffer into an output block with cleaned text. -/
def mkBlock (sp : String) (buf : List (List Char)) : Block :=
  ⟨sp, cleanup buf⟩

/-- The stripped text of a transcript segment, as buffered by merge. -/
def stripT (t : TranscriptSeg) : List Char :=
  pyStrip t.text.toList

/-- The speaker resolved for a transcript segment against the given runs. -/
def resolved (runs : List Segment) (t : TranscriptSeg) : String :=
  find_speaker_for_interval t.start t.stop runs

/-- The accumulation loop of merge: carries the optional current speaker
(None before the first segment) and the pending text buffer, emitting a
block whenever the resolved speaker changes, and flushing at the end. -/
def mergeLoop (runs : List Segment) :
    Option String → List (List Char) → List TranscriptSeg → List Block
  | none, _, [] => []
  | some c, buf, [] => [mkBlock c buf]
  | cur, buf, t :: rest =>
    let sp := find_speaker_for_interval t.start t.stop runs
    if some sp = cur then mergeLoop runs cur (buf ++ [pyStrip t.text.toList]) rest
    else (match cur with
          | none => []
          | some c => [mkBlock c buf]) ++
         mergeLoop runs (some sp) [pyStrip t.text.toList] rest

/-- The block-producing core of merge: resolve each transcript segment and
accumulate consecutive same-speaker segments into output blocks. -/
def mergeBlocks (runs : List Segment) (ts : List TranscriptSeg) : List Block :=
  mergeLoop runs none [] ts

/-- Format an output block as the source writes it to the output file. -/
def formatLine (b : Block) : String :=
  "[[" ++ b.speaker ++ "]]: " ++ String.mk b.text

/-- Group a list into maximal consecutive blocks whose elements share the
same key under f; accumulator-based, mirroring the scan of the source. -/
def chunkAux {α : Type} (f : α → String) (k : String) (cur : List α) :
    List α → List (List α)
  | [] => [cur.reverse]
  | a :: rest =>
    if f a = k then chunkAux f k (a :: cur) rest
    else cur.reverse :: chunkAux f (f a) [a] rest

/-- Maximal consecutive same-key groups of a list. -/
def chunkBy {α : Type} (f : α → String) : List α → List (List α)
  | [] => []
  | a :: rest => chunkAux f (f a) [a] rest

/-- The run a maximal same-speaker group collapses to: start of the first
segment, running maximum of all ends, the shared speaker. -/
def collapseRun : List Segment → Segment
  | [] => ⟨0, 0, ""⟩
  | s :: g => ⟨s.start, g.foldl (fun a t => max a t.stop) s.stop, s.speaker⟩

/-- The block a maximal same-resolved-speaker group of transcript segments
collapses to: the shared resolved speaker and the cleaned joined text. -/
def collapseBlock (runs : List Segment) : List TranscriptSeg → Block
  | [] => ⟨"", []⟩
  | t :: g => mkBlock (resolved runs t) ((t :: g).map stripT)

/-- Whitespace-normalized text: every whitespace character is a plain
space, no two adjacent whitespace characters, and no whitespace at either
end. -/
def wsNormalized (t : List Char) : Prop :=
  (∀ c ∈ t, c.isWhitespace = true → c = ' ')
  ∧ List.Chain' (fun a b => ¬(a.isWhitespace = true ∧ b.isWhitespace = true)) t
  ∧ t.head?.all (fun c => !c.isWhitespace) = true
  ∧ t.getLast?.all (fun c => !c.isWhitespace) = true

/-! ### Lemmas about the resolution scan loop -/

theorem findLoop_noupd (ss se : ℚ) (l : List Segment) (sp : String) (M : ℚ)
    (h : ∀ q ∈ l, rawOv ss se q ≤ M) :
    findLoop ss se l (sp, M) = (sp, M) := by
  induction l with
  | nil => rfl
  | cons q rest ih =>
    have hq := h q (by simp)
    have hrest : ∀ x ∈ rest, rawOv ss se x ≤ M := fun x hx => h x (by simp [hx])
    by_cases hlt : max ss q.start < min se q.stop
    · have hng : ¬ (min se q.stop - max ss q.start > M) := by
        simp only [rawOv] at hq; linarith
      simp [findLoop, hlt, hng, ih hrest]
    · simp [findLoop, hlt, ih hrest]

theorem findLoop_first_max (ss se : ℚ) (r : Segment) (post : List Segment)
    (hpost : ∀ q ∈ post, rawOv ss se q ≤ rawOv ss se r) :
    ∀ (pre : List Segment) (b : String) (m : ℚ), 0 ≤ m → m < rawOv ss se r →
    (∀ q ∈ pre, rawOv ss se q < rawOv ss se r) →
    findLoop ss se (pre ++ r :: post) (b, m) = (r.speaker, rawOv ss se r) := by
  intro pre
  induction pre with
  | nil =>
    intro b m hm hmr _
    have hpos : max ss r.start < min se r.stop := by
      simp only [rawOv] at hmr; linarith
    have hupd : min se r.stop - max ss r.start > m := by
      simp only [rawOv] at hmr; linarith
    simp only [List.nil_append, findLoop, hpos, if_pos, hupd]
    exact findLoop_noupd ss se post r.speaker (rawOv ss se r) hpost
  | cons q pre' ih =>
    intro b m hm hmr hpre
    have hq : rawOv ss se q < rawOv ss se r := hpre q (by simp)
    have hpre' : ∀ x ∈ pre', rawOv ss se x < rawOv ss se r :=
      fun x hx => hpre x (by simp [hx])
    by_cases hlt : max ss q.start < min se q.stop
    · by_cases hupd : min se q.stop - max ss q.start > m
      · have h0 : 0 ≤ min se q.stop - max ss q.start := by linarith
        have h1 : min se q.stop - max ss q.start < rawOv ss se r := by
          simpa [rawOv] using hq
        simp only [List.cons_append, findLoop]
        rw [if_pos hlt, if_pos hupd]
        exact ih q.speaker (min se q.stop - max ss q.start) h0 h1 hpre'
      · simp only [List.cons_append, findLoop]
        rw [if_pos hlt, if_neg hupd]
        exact ih b m hm hmr hpre'
    · simp only [List.cons_append, findLoop]
      rw [if_neg hlt]
      exact ih b m hm hmr hpre'

theorem findLoop_unique_max (ss se : ℚ) (r : Segment) :
    ∀ (l : List Segment) (b : String) (m : ℚ), 0 ≤ m → r ∈ l → m < rawOv ss se r →
    (∀ q ∈ l, rawOv ss se q ≤ rawOv ss se r) →
    (∀ q ∈ l, rawOv ss se q = rawOv ss se r → q.speaker = r.speaker) →
    findLoop ss se l (b, m) = (r.speaker, rawOv ss se r) := by
  intro l
  induction l with
  | nil => intro b m _ hr; exact absurd hr (by simp)
  | cons q rest ih =>
    intro b m hm hr hmr hle hsp
    have hqle : rawOv ss se q ≤ rawOv ss se r := hle q (by simp)
    have hle' : ∀ x ∈ rest, rawOv ss se x ≤ rawOv ss se r :=
      fun x hx => hle x (by simp [hx])
    have hsp' : ∀ x ∈ rest, rawOv ss se x = rawOv ss se r → x.speaker = r.speaker :=
      fun x hx => hsp x (by simp [hx])
    by_cases hlt : max ss q.start < min se q.stop
    · by_cases hupd : min se q.stop - max ss q.start > m
      · by_cases heq : rawOv ss se q = rawOv ss se r
        · have hspeq : q.speaker = r.speaker := hsp q (by simp) heq
          simp only [findLoop]
          rw [if_pos hlt, if_pos hupd]
          have : findLoop ss se rest (q.speaker, min se q.stop - max ss q.start) =
              (q.speaker, min se q.stop - max ss q.start) := by
            apply findLoop_noupd
            intro x hx
            have := hle' x hx
            simp only [rawOv] at this heq ⊢
            linarith [this, heq.ge]
          rw [this, hspeq]
          simp only [rawOv] at heq ⊢
          rw [heq]
        · have hrrest : r ∈ rest := by
            rcases List.mem_cons.mp hr with h | h
            · exact absurd (by rw [h]) heq
            · exact h
          have h0 : 0 ≤ min se q.stop - max ss q.start := by linarith
          have h1 : min se q.stop - max ss q.start < rawOv ss se r :=
            lt_of_le_of_ne (by simpa [rawOv] using hqle) (by simpa [rawOv] using heq)
          simp only [findLoop]
          rw [if_pos hlt, if_pos hupd]
          exact ih q.speaker (min se q.stop - max ss q.start) h0 hrrest h1 hle' hsp'
      · have hql : rawOv ss se q < rawOv ss se r := by
          simp only [rawOv] at *; linarith
        have hrrest : r ∈ rest := by
          rcases List.mem_cons.mp hr with h | h
          · exfalso; rw [h] at hql; exact lt_irrefl _ hql
          · exact h
        simp only [findLoop]
        rw [if_pos hlt, if_neg hupd]
        exact ih b m hm hrrest hmr hle' hsp'
    · have hq0 : rawOv ss se q ≤ 0 := by
        simp only [rawOv]; linarith [le_of_not_lt hlt]
      have hql : rawOv ss se q < rawOv ss se r := lt_of_le_of_lt (hq0.trans hm) hmr
      have hrrest : r ∈ rest := by
        rcases List.mem_cons.mp hr with h | h
        · exfalso; rw [h] at hql; exact lt_irrefl _ hql
        · exact h
      simp only [findLoop]
      rw [if_neg hlt]
      exact ih b m hm hrrest hmr hle' hsp'

theorem le_foldl_maxStop (b : ℚ) (l : List Segment) :
    b ≤ l.foldl (fun a q => max a q.stop) b := by
  induction l generalizing b with
  | nil => exact le_refl b
  | cons q rest ih =>
    exact le_trans (le_max_left b q.stop) (ih (max b q.stop))

theorem stop_le_foldl_maxStop {q : Segment} {l : List Segment} (b : ℚ) (h : q ∈ l) :
    q.stop ≤ l.foldl (fun a x => max a x.stop) b := by
  induction l generalizing b with
  | nil => exact absurd h (by simp)
  | cons x rest ih =>
    rcases List.mem_cons.mp h with rfl | hmem
    · exact le_trans (le_max_right b q.stop) (le_foldl_maxStop _ rest)
    · exact ih (max b x.stop) hmem

theorem stop_le_lastEnd {q : Segment} {runs : List Segment} (h : q ∈ runs) :
    q.stop ≤ lastEnd runs := by
  cases runs with
  | nil => exact absurd h (by simp)
  | cons r0 rs =>
    rcases List.mem_cons.mp h with rfl | hmem
    · exact le_foldl_maxStop q.stop rs
    · exact stop_le_foldl_maxStop r0.stop hmem

theorem foldl_maxStop_le {c b : ℚ} {l : List Segment} (hb : b ≤ c)
    (h : ∀ q ∈ l, q.stop ≤ c) : l.foldl (fun a q => max a q.stop) b ≤ c := by
  induction l generalizing b with
  | nil => exact hb
  | cons q rest ih =>
    exact ih (max_le hb (h q (by simp))) (fun x hx => h x (by simp [hx]))

theorem lastEnd_le {c : ℚ} {runs : List Segment}
    (h : ∀ q ∈ runs, q.stop ≤ c) (hne : runs ≠ []) : lastEnd runs ≤ c := by
  cases runs with
  | nil => exact absurd rfl hne
  | cons r0 rs =>
    exact foldl_maxStop_le (h r0 (by simp)) (fun x hx => h x (by simp [hx]))

theorem find_eq_of_loop (ss se : ℚ) (runs : List Segment) (sp : String) (M : ℚ)
    (hloop : findLoop ss se runs ("UNKNOWN", 0) = (sp, M))
    (hpos : ∃ r ∈ runs, 0 < rawOv ss se r) :
    find_speaker_for_interval ss se runs = sp := by
  obtain ⟨r, hr, hrpos⟩ := hpos
  have hlt : ss < lastEnd runs := by
    have h1 : max ss r.start < min se r.stop := by
      simp only [rawOv] at hrpos; linarith
    have h2 : ss ≤ max ss r.start := le_max_left _ _
    have h3 : min se r.stop ≤ r.stop := min_le_right _ _
    exact lt_of_lt_of_le (lt_of_le_of_lt h2 (lt_of_lt_of_le h1 h3)) (stop_le_lastEnd hr)
  cases runs with
  | nil => exact absurd hr (by simp)
  | cons r0 rs =>
    simp only [find_speaker_for_interval, hloop]
    by_cases hu : sp = "UNKNOWN"
    · rw [if_pos hu, if_neg (not_le.mpr hlt), hu]
    · rw [if_neg hu]

/-! ### Claims about speaker resolution -/

/-- C2: find_speaker_for_interval selects the run with the strictly largest
positive overlap; when later runs only reach (never exceed) that overlap,
the earliest such run in scan order wins — a later run with overlap merely
equal to the current maximum never replaces the earlier one. -/
theorem tie_breaking (ss se : ℚ) (pre post : List Segment) (r : Segment)
    (hpos : 0 < overlap ss se r)
    (hpre : ∀ q ∈ pre, overlap ss se q < overlap ss se r)
    (hpost : ∀ q ∈ post, overlap ss se q ≤ overlap ss se r) :
    find_speaker_for_interval ss se (pre ++ r :: post) = r.speaker := by
  have hr : 0 < rawOv ss se r := by
    have h := hpos
    rw [show overlap ss se r = max 0 (rawOv ss se r) from rfl] at h
    rcases lt_max_iff.mp h with h0 | h0
    · exact absurd h0 (lt_irrefl 0)
    · exact h0
  have hovr : overlap ss se r = rawOv ss se r := max_eq_right (le_of_lt hr)
  have hpre' : ∀ q ∈ pre, rawOv ss se q < rawOv ss se r := fun q hq =>
    lt_of_le_of_lt (le_max_right 0 (rawOv ss se q)) (hovr ▸ hpre q hq)
  have hpost' : ∀ q ∈ post, rawOv ss se q ≤ rawOv ss se r := fun q hq =>
    le_trans (le_max_right 0 (rawOv ss se q)) (hovr ▸ hpost q hq)
  exact find_eq_of_loop ss se (pre ++ r :: post) r.speaker (rawOv ss se r)
    (findLoop_first_max ss se r post hpost' pre "UNKNOWN" 0 le_rfl hr hpre')
    ⟨r, List.mem_append_right pre (List.mem_cons_self r post), hr⟩

/-- Witness for C2 at a concrete tie: two runs with identical positive
overlap 2 with the segment; the earlier one (speaker B) is selected over
the later equal-overlap run (speaker C). -/
theorem tie_breaking_witness :
    find_speaker_for_interval 1 3 ([⟨0, 1, "A"⟩] ++ ⟨1, 3, "B"⟩ :: [⟨1, 3, "C"⟩]) = "B" :=
  tie_breaking 1 3 [⟨0, 1, "A"⟩] [⟨1, 3, "C"⟩] ⟨1, 3, "B"⟩
    (by with_unfolding_all decide)
    (by with_unfolding_all decide)
    (by with_unfolding_all decide)

/-- C5: a transcript segment wholly contained in exactly one run's interval
resolves to that run's speaker. -/
theorem containment_resolution (ss se : ℚ) (runs : List Segment) (r : Segment)
    (hseg : ss < se) (hr : r ∈ runs)
    (h1 : r.start ≤ ss) (h2 : se ≤ r.stop)
    (huniq : ∀ q ∈ runs, q.start ≤ ss → se ≤ q.stop → q = r) :
    find_speaker_for_interval ss se runs = r.speaker := by
  have hovr : rawOv ss se r = se - ss := by
    simp only [rawOv, min_eq_left h2, max_eq_left h1]
  have hpos : 0 < rawOv ss se r := by rw [hovr]; linarith
  have hle : ∀ q ∈ runs, rawOv ss se q ≤ rawOv ss se r := by
    intro q _
    rw [hovr]
    simp only [rawOv]
    have hm1 := min_le_left se q.stop
    have hm2 := le_max_left ss q.start
    linarith
  have hattain : ∀ q ∈ runs, rawOv ss se q = rawOv ss se r → q.speaker = r.speaker := by
    intro q hq heq
    rw [hovr] at heq
    simp only [rawOv] at heq
    have hminle : min se q.stop ≤ se := min_le_left _ _
    have hmaxge : ss ≤ max ss q.start := le_max_left _ _
    have hmin : min se q.stop = se := by linarith
    have hmax : max ss q.start = ss := by linarith
    have hq2 : se ≤ q.stop := by
      rcases le_total se q.stop with h | h
      · exact h
      · rw [min_eq_right h] at hmin; linarith
    have hq1 : q.start ≤ ss := by
      rcases le_total ss q.start with h | h
      · rw [max_eq_right h] at hmax; linarith
      · exact h
    rw [huniq q hq hq1 hq2]
  exact find_eq_of_loop ss se runs r.speaker (rawOv ss se r)
    (findLoop_unique_max ss se r runs "UNKNOWN" 0 le_rfl hr hpos hle hattain)
    ⟨r, hr, hpos⟩

/-- Witness for C5: the segment spanning 2 to 3 is wholly contained only in
the run from 1 to 4 with speaker B, and resolves to B. -/
theorem containment_resolution_witness :
    find_speaker_for_interval 2 3 [⟨0, 1, "A"⟩, ⟨1, 4, "B"⟩] = "B" :=
  containment_resolution 2 3 [⟨0, 1, "A"⟩, ⟨1, 4, "B"⟩] ⟨1, 4, "B"⟩
    (by with_unfolding_all decide) (by with_unfolding_all decide)
    (by with_unfolding_all decide) (by with_unfolding_all decide)
    (by with_unfolding_all decide)

/-- C1: for a nonempty, well-formed, start-sorted run list and a well-formed
transcript segment with zero overlap with every run, the resolved speaker
is the last run's speaker when the segment starts at or after the last
run's end, and UNKNOWN otherwise. -/
theorem trailing_fallback (ss se : ℚ) (runs : List Segment) (hne : runs ≠ [])
    (hseg : ss < se)
    (hwf : ∀ q ∈ runs, q.start < q.stop)
    (hsort : runs.Pairwise (fun a b => a.start ≤ b.start))
    (hzero : ∀ q ∈ runs, overlap ss se q = 0) :
    find_speaker_for_interval ss se runs =
      if (runs.getLast hne).stop ≤ ss then (runs.getLast hne).speaker
      else "UNKNOWN" := by
  have hraw : ∀ q ∈ runs, rawOv ss se q ≤ 0 := by
    intro q hq
    have h := hzero q hq
    rw [show overlap ss se q = max 0 (rawOv ss se q) from rfl] at h
    exact max_eq_left_iff.mp h
  have hloop : findLoop ss se runs ("UNKNOWN", 0) = ("UNKNOWN", 0) :=
    findLoop_noupd ss se runs "UNKNOWN" 0 hraw
  have hkey : (runs.getLast hne).stop ≤ ss ↔ lastEnd runs ≤ ss := by
    constructor
    · intro hg
      apply lastEnd_le _ hne
      intro q hq
      have hdec := List.dropLast_append_getLast hne
      have hq' : q ∈ runs.dropLast ++ [runs.getLast hne] := by rw [hdec]; exact hq
      rcases List.mem_append.mp hq' with hmem | hmem
      · have hsort' : (runs.dropLast ++ [runs.getLast hne]).Pairwise
            (fun a b => a.start ≤ b.start) := by rw [hdec]; exact hsort
        have hrel := (List.pairwise_append.mp hsort').2.2 q hmem
          (runs.getLast hne) (List.mem_singleton_self _)
        have hlwf := hwf (runs.getLast hne) (List.getLast_mem hne)
        have hqs : q.start ≤ ss := le_trans hrel (le_trans (le_of_lt hlwf) hg)
        by_contra hc
        push_neg at hc
        have hr := hraw q hq
        simp only [rawOv] at hr
        have hmin : ss < min se q.stop := lt_min hseg hc
        have hmax : max ss q.start = ss := max_eq_left hqs
        rw [hmax] at hr
        linarith
      · rw [List.mem_singleton.mp hmem]
        exact hg
    · intro hl
      exact le_trans (stop_le_lastEnd (List.getLast_mem hne)) hl
  obtain ⟨r0, rs, rfl⟩ := List.exists_cons_of_ne_nil hne
  simp only [find_speaker_for_interval, hloop]
  rw [if_pos trivial]
  by_cases hc : ((r0 :: rs).getLast hne).stop ≤ ss
  · rw [if_pos hc, if_pos (hkey.mp hc)]
  · rw [if_neg hc, if_neg (fun h => hc (hkey.mpr h))]

/-- Witness for C1: the segment from 12 to 13 starts after the single run
ending at 10, so the trailing fallback yields that run's speaker. -/
theorem trailing_fallback_witness :
    find_speaker_for_interval 12 13 [⟨0, 10, "A"⟩] =
      if (([⟨0, 10, "A"⟩] : List Segment).getLast (by simp)).stop ≤ 12
      then (([⟨0, 10, "A"⟩] : List Segment).getLast (by simp)).speaker
      else "UNKNOWN" :=
  trailing_fallback 12 13 [⟨0, 10, "A"⟩] (by simp)
    (by with_unfolding_all decide)
    (by with_unfolding_all decide)
    (by simp)
    (by with_unfolding_all decide)

/-! ### Lemmas about the coalescer -/

theorem joinLoop_head_speaker (l : List Segment) :
    ∀ (cs ce : ℚ) (csp : String),
    (joinLoop cs ce csp l).head?.map Segment.speaker = some csp := by
  induction l with
  | nil => intro cs ce csp; rfl
  | cons s rest ih =>
    intro cs ce csp
    by_cases h : s.speaker = csp
    · simp only [joinLoop, if_pos h]
      exact ih cs (max ce s.stop) csp
    · simp only [joinLoop, if_neg h, List.head?_cons]
      rfl

theorem joinLoop_chain (l : List Segment) :
    ∀ (cs ce : ℚ) (csp : String),
    (joinLoop cs ce csp l).Chain' (fun a b => a.speaker ≠ b.speaker) := by
  induction l with
  | nil => intro cs ce csp; simp [joinLoop]
  | cons s rest ih =>
    intro cs ce csp
    by_cases h : s.speaker = csp
    · simp only [joinLoop, if_pos h]
      exact ih cs (max ce s.stop) csp
    · simp only [joinLoop, if_neg h]
      rw [List.chain'_cons']
      refine ⟨?_, ih s.start s.stop s.speaker⟩
      intro y hy
      have hh := joinLoop_head_speaker rest s.start s.stop s.speaker
      rw [Option.mem_def] at hy
      rw [hy] at hh
      have hys : y.speaker = s.speaker := Option.some.inj hh
      show (Segment.mk cs ce csp).speaker ≠ y.speaker
      rw [hys]
      exact fun hc => h hc.symm

theorem collapseRun_append (xs : List Segment) (t : Segment) (hxs : xs ≠ []) :
    collapseRun (xs ++ [t]) =
      ⟨(collapseRun xs).start, max (collapseRun xs).stop t.stop,
       (collapseRun xs).speaker⟩ := by
  cases xs with
  | nil => exact absurd rfl hxs
  | cons s g =>
    simp only [List.cons_append, collapseRun, List.foldl_append, List.foldl_cons,
      List.foldl_nil]

theorem joinLoop_chunks (l : List Segment) :
    ∀ (cur : List Segment) (cs ce : ℚ) (csp : String), cur ≠ [] →
    collapseRun cur.reverse = ⟨cs, ce, csp⟩ →
    joinLoop cs ce csp l = (chunkAux Segment.speaker csp cur l).map collapseRun := by
  induction l with
  | nil =>
    intro cur cs ce csp _ hcol
    simp only [joinLoop, chunkAux, List.map_cons, List.map_nil, hcol]
  | cons s rest ih =>
    intro cur cs ce csp hcur hcol
    by_cases h : s.speaker = csp
    · simp only [joinLoop, chunkAux, if_pos h]
      apply ih (s :: cur) cs (max ce s.stop) csp (by simp)
      rw [List.reverse_cons, collapseRun_append cur.reverse s (by simpa using hcur), hcol]
    · simp only [joinLoop, chunkAux, if_neg h, List.map_cons, hcol]
      exact congrArg (fun x => Segment.mk cs ce csp :: x)
        (ih [s] s.start s.stop s.speaker (by simp) rfl)

theorem joinLoop_speakers (l : List Segment) :
    ∀ (cs ce : ℚ) (csp : String),
    (joinLoop cs ce csp l).map Segment.speaker =
      List.destutter' (· ≠ ·) csp (l.map Segment.speaker) := by
  induction l with
  | nil => intro cs ce csp; simp [joinLoop, List.destutter'_nil]
  | cons s rest ih =>
    intro cs ce csp
    by_cases h : s.speaker = csp
    · simp only [joinLoop, if_pos h, List.map_cons, List.destutter'_cons]
      rw [if_neg (by simp [h])]
      exact ih cs (max ce s.stop) csp
    · simp only [joinLoop, if_neg h, List.map_cons, List.destutter'_cons]
      rw [if_pos (fun hc => h hc.symm)]
      exact congrArg (fun x => csp :: x) (ih s.start s.stop s.speaker)

theorem joinLoop_length (l : List Segment) :
    ∀ (cs ce : ℚ) (csp : String), (joinLoop cs ce csp l).length ≤ l.length + 1 := by
  induction l with
  | nil => intro cs ce csp; simp [joinLoop]
  | cons s rest ih =>
    intro cs ce csp
    by_cases h : s.speaker = csp
    · simp only [joinLoop, if_pos h, List.length_cons]
      exact le_trans (ih cs (max ce s.stop) csp) (by omega)
    · simp only [joinLoop, if_neg h, List.length_cons]
      have := ih s.start s.stop s.speaker
      omega

theorem joinLoop_starts_sublist (l : List Segment) :
    ∀ (cs ce : ℚ) (csp : String),
    List.Sublist ((joinLoop cs ce csp l).map Segment.start)
      (cs :: l.map Segment.start) := by
  induction l with
  | nil => intro cs ce csp; simp [joinLoop]
  | cons s rest ih =>
    intro cs ce csp
    by_cases h : s.speaker = csp
    · simp only [joinLoop, if_pos h, List.map_cons]
      exact (ih cs (max ce s.stop) csp).trans
        ((List.sublist_cons_self s.start (rest.map Segment.start)).cons₂ cs)
    · simp only [joinLoop, if_neg h, List.map_cons]
      exact (ih s.start s.stop s.speaker).cons₂ cs

/-! ### Claims about the coalescer -/

/-- C3: on a nonempty start-sorted input, each emitted run is the collapse
of its maximal consecutive same-speaker group: start of the group's first
segment, running maximum of all absorbed segments' ends, and the shared
speaker — gaps between same-speaker segments are bridged regardless of
size. -/
theorem coalescer_run_bounds (segs : List Segment) (hne : segs ≠ [])
    (hs : segs.Pairwise fun a b => a.start ≤ b.start) :
    join_consecutive_speaker_intervals segs =
      (chunkBy Segment.speaker segs).map collapseRun := by
  obtain ⟨s, rest, rfl⟩ := List.exists_cons_of_ne_nil hne
  simp only [join_consecutive_speaker_intervals, chunkBy]
  exact joinLoop_chunks rest [s] s.start s.stop s.speaker (by simp) rfl

/-- Witness for C3 at a concrete sorted input with a gap between two
same-speaker segments and a later same-speaker segment extending the end. -/
theorem coalescer_run_bounds_witness :
    join_consecutive_speaker_intervals
        [⟨0, 1, "A"⟩, ⟨2, 5, "A"⟩, ⟨3, 4, "A"⟩, ⟨6, 7, "B"⟩] =
      (chunkBy Segment.speaker
        [⟨0, 1, "A"⟩, ⟨2, 5, "A"⟩, ⟨3, 4, "A"⟩, ⟨6, 7, "B"⟩]).map collapseRun :=
  coalescer_run_bounds [⟨0, 1, "A"⟩, ⟨2, 5, "A"⟩, ⟨3, 4, "A"⟩, ⟨6, 7, "B"⟩]
    (by simp) (by with_unfolding_all decide)

/-- C7: no two adjacent runs in the coalescer output share a speaker. -/
theorem coalescer_alternation (segs : List Segment) (hne : segs ≠ [])
    (hs : segs.Pairwise fun a b => a.start ≤ b.start) :
    (join_consecutive_speaker_intervals segs).Chain'
      (fun a b => a.speaker ≠ b.speaker) := by
  obtain ⟨s, rest, rfl⟩ := List.exists_cons_of_ne_nil hne
  simp only [join_consecutive_speaker_intervals]
  exact joinLoop_chain rest s.start s.stop s.speaker

/-- Witness for C7 at a concrete sorted input whose speakers alternate
after coalescing. -/
theorem coalescer_alternation_witness :
    (join_consecutive_speaker_intervals
      [⟨0, 1, "A"⟩, ⟨1, 2, "A"⟩, ⟨2, 3, "B"⟩, ⟨3, 4, "A"⟩]).Chain'
      (fun a b => a.speaker ≠ b.speaker) :=
  coalescer_alternation [⟨0, 1, "A"⟩, ⟨1, 2, "A"⟩, ⟨2, 3, "B"⟩, ⟨3, 4, "A"⟩]
    (by simp) (by with_unfolding_all decide)

/-- C9: on a start-sorted input, the coalescer output is start-sorted, its
speaker sequence is the input's speaker sequence with consecutive
duplicates removed, its length never exceeds the input's, and the empty
input yields the empty output. -/
theorem coalescer_structure_preservation (segs : List Segment)
    (hs : segs.Pairwise fun a b => a.start ≤ b.start) :
    ((join_consecutive_speaker_intervals segs).Pairwise fun a b => a.start ≤ b.start)
    ∧ (join_consecutive_speaker_intervals segs).map Segment.speaker
        = (segs.map Segment.speaker).destutter (· ≠ ·)
    ∧ (join_consecutive_speaker_intervals segs).length ≤ segs.length
    ∧ join_consecutive_speaker_intervals ([] : List Segment) = [] := by
  refine ⟨?_, ?_, ?_, rfl⟩
  · cases segs with
    | nil => simp [join_consecutive_speaker_intervals]
    | cons s rest =>
      have hsub : List.Sublist
          ((join_consecutive_speaker_intervals (s :: rest)).map Segment.start)
          ((s :: rest).map Segment.start) := by
        simp only [join_consecutive_speaker_intervals, List.map_cons]
        exact joinLoop_starts_sublist rest s.start s.stop s.speaker
      have hmap : ((s :: rest).map Segment.start).Pairwise (· ≤ ·) :=
        List.pairwise_map.mpr hs
      exact List.pairwise_map.mp (hmap.sublist hsub)
  · cases segs with
    | nil => rfl
    | cons s rest =>
      simp only [join_consecutive_speaker_intervals, List.map_cons,
        List.destutter_cons']
      exact joinLoop_speakers rest s.start s.stop s.speaker
  · cases segs with
    | nil => simp [join_consecutive_speaker_intervals]
    | cons s rest =>
      simp only [join_consecutive_speaker_intervals, List.length_cons]
      exact joinLoop_length rest s.start s.stop s.speaker

/-- Witness for C9 at a concrete sorted input. -/
theorem coalescer_structure_preservation_witness :
    ((join_consecutive_speaker_intervals
        [⟨0, 1, "A"⟩, ⟨1, 2, "A"⟩, ⟨2, 3, "B"⟩]).Pairwise
      fun a b => a.start ≤ b.start)
    ∧ (join_consecutive_speaker_intervals
        [⟨0, 1, "A"⟩, ⟨1, 2, "A"⟩, ⟨2, 3, "B"⟩]).map Segment.speaker
        = (([⟨0, 1, "A"⟩, ⟨1, 2, "A"⟩, ⟨2, 3, "B"⟩] : List Segment).map
            Segment.speaker).destutter (· ≠ ·)
    ∧ (join_consecutive_speaker_intervals
        [⟨0, 1, "A"⟩, ⟨1, 2, "A"⟩, ⟨2, 3, "B"⟩]).length ≤
        ([⟨0, 1, "A"⟩, ⟨1, 2, "A"⟩, ⟨2, 3, "B"⟩] : List Segment).length
    ∧ join_consecutive_speaker_intervals ([] : List Segment) = [] :=
  coalescer_structure_preservation [⟨0, 1, "A"⟩, ⟨1, 2, "A"⟩, ⟨2, 3, "B"⟩]
    (by with_unfolding_all decide)

/-! ### Lemmas about the accumulation loop of merge -/

theorem collapseBlock_reverse (runs : List Segment) (cur : List TranscriptSeg)
    (c : String) (hcur : cur ≠ []) (hall : ∀ t ∈ cur, resolved runs t = c) :
    collapseBlock runs cur.reverse = mkBlock c (cur.reverse.map stripT) := by
  cases hc : cur.reverse with
  | nil => exact absurd (by simpa using hc) hcur
  | cons t0 g =>
    have ht0 : t0 ∈ cur := by rw [← List.mem_reverse, hc]; simp
    simp only [collapseBlock, hall t0 ht0]

theorem mergeLoop_chunks (runs : List Segment) (l : List TranscriptSeg) :
    ∀ (cur : List TranscriptSeg) (c : String) (buf : List (List Char)), cur ≠ [] →
    (∀ t ∈ cur, resolved runs t = c) →
    buf = cur.reverse.map stripT →
    mergeLoop runs (some c) buf l =
      (chunkAux (resolved runs) c cur l).map (collapseBlock runs) := by
  induction l with
  | nil =>
    intro cur c buf hcur hall hbuf
    simp only [mergeLoop, chunkAux, List.map_cons, List.map_nil,
      collapseBlock_reverse runs cur c hcur hall, hbuf]
  | cons t rest ih =>
    intro cur c buf hcur hall hbuf
    by_cases h : resolved runs t = c
    · have hcond : some (find_speaker_for_interval t.start t.stop runs) = some c := by
        rw [show find_speaker_for_interval t.start t.stop runs = resolved runs t
          from rfl, h]
      simp only [mergeLoop, chunkAux, h, if_pos, hcond]
      apply ih (t :: cur) c (buf ++ [pyStrip t.text.toList]) (by simp)
      · intro x hx
        rcases List.mem_cons.mp hx with rfl | hx
        · exact h
        · exact hall x hx
      · rw [hbuf, List.reverse_cons, List.map_append]
        rfl
    · have hcond : ¬ some (find_speaker_for_interval t.start t.stop runs) = some c := by
        rw [show find_speaker_for_interval t.start t.stop runs = resolved runs t
          from rfl]
        exact fun hc => h (Option.some.inj hc)
      simp only [mergeLoop, chunkAux, if_neg hcond, if_neg h, List.map_cons]
      rw [collapseBlock_reverse runs cur c hcur hall, ← hbuf]
      simp only [List.singleton_append]
      exact congrArg (fun x => mkBlock c buf :: x)
        (ih [t] (resolved runs t) [pyStrip t.text.toList] (by simp)
          (by intro x hx; rw [List.mem_singleton.mp hx]) rfl)

theorem mergeBlocks_chunks (runs : List Segment) (ts : List TranscriptSeg) :
    mergeBlocks runs ts = (chunkBy (resolved runs) ts).map (collapseBlock runs) := by
  cases ts with
  | nil => rfl
  | cons t rest =>
    simp only [mergeBlocks, mergeLoop, chunkBy]
    rw [if_neg (by simp)]
    simp only [List.nil_append]
    exact mergeLoop_chunks runs rest [t] (resolved runs t) [pyStrip t.text.toList]
      (by simp) (by intro x hx; rw [List.mem_singleton.mp hx]) rfl

theorem chunkAux_all_eq {α : Type} (f : α → String) (k : String) (l : List α) :
    ∀ (cur : List α), (∀ a ∈ l, f a = k) →
    chunkAux f k cur l = [cur.reverse ++ l] := by
  induction l with
  | nil => intro cur _; simp [chunkAux]
  | cons a rest ih =>
    intro cur hall
    have ha : f a = k := hall a (by simp)
    simp only [chunkAux, if_pos ha]
    rw [ih (a :: cur) (fun x hx => hall x (by simp [hx]))]
    simp [List.reverse_cons, List.append_assoc]

/-! ### Claims about the accumulation loop -/

/-- C10: the accumulation of merge groups transcript segments purely by
equality of the resolved speaker string — UNKNOWN is treated exactly like
any named speaker: consecutive UNKNOWN segments merge into one UNKNOWN
block, and any change of resolved speaker (UNKNOWN to named, named to
UNKNOWN, or named to named) closes the pending buffer and starts a new
block. -/
theorem unknown_ordinary_speaker (runs : List Segment) (ts : List TranscriptSeg) :
    mergeBlocks runs ts = (chunkBy (resolved runs) ts).map (collapseBlock runs)
    ∧ (ts ≠ [] → (∀ t ∈ ts, resolved runs t = "UNKNOWN") →
        mergeBlocks runs ts = [mkBlock "UNKNOWN" (ts.map stripT)]) := by
  refine ⟨mergeBlocks_chunks runs ts, ?_⟩
  intro hne hall
  obtain ⟨t, rest, rfl⟩ := List.exists_cons_of_ne_nil hne
  rw [mergeBlocks_chunks]
  simp only [chunkBy]
  rw [hall t (by simp), chunkAux_all_eq (resolved runs) "UNKNOWN" rest [t]
    (fun x hx => hall x (by simp [hx]))]
  simp only [List.reverse_cons, List.reverse_nil, List.nil_append,
    List.singleton_append, List.map_cons, List.map_nil, collapseBlock]
  rw [hall t (by simp)]

/-- Witness for C10: two consecutive transcript segments with no overlap
against the single late run both resolve to UNKNOWN and merge into a
single UNKNOWN block. -/
theorem unknown_ordinary_speaker_witness :
    mergeBlocks [⟨5, 6, "A"⟩] [⟨0, 1, "x"⟩, ⟨1, 2, "y"⟩] =
      [mkBlock "UNKNOWN" (([⟨0, 1, "x"⟩, ⟨1, 2, "y"⟩] : List TranscriptSeg).map
        stripT)] :=
  (unknown_ordinary_speaker [⟨5, 6, "A"⟩] [⟨0, 1, "x"⟩, ⟨1, 2, "y"⟩]).2 (by simp)
    (by with_unfolding_all decide)

/-- C4: with zero diarization runs, every transcript segment resolves to
UNKNOWN (the trailing fallback cannot apply), and merge still produces its
output blocks without error: none for an empty transcript, and one UNKNOWN
block covering all segments otherwise. -/
theorem empty_diarization (ss se : ℚ) (ts : List TranscriptSeg) :
    find_speaker_for_interval ss se [] = "UNKNOWN"
    ∧ mergeBlocks [] [] = []
    ∧ (ts ≠ [] → mergeBlocks [] ts = [mkBlock "UNKNOWN" (ts.map stripT)]) := by
  refine ⟨rfl, rfl, ?_⟩
  intro hne
  obtain ⟨t, rest, rfl⟩ := List.exists_cons_of_ne_nil hne
  rw [mergeBlocks_chunks]
  simp only [chunkBy]
  rw [show resolved ([] : List Segment) t = "UNKNOWN" from rfl,
    chunkAux_all_eq (resolved []) "UNKNOWN" rest [t] (fun x _ => rfl)]
  simp only [List.reverse_cons, List.reverse_nil, List.nil_append,
    List.singleton_append, List.map_cons, List.map_nil, collapseBlock]
  rw [show resolved ([] : List Segment) t = "UNKNOWN" from rfl]

/-- Witness for C4: a one-segment transcript with no diarization yields a
single UNKNOWN block. -/
theorem empty_diarization_witness :
    mergeBlocks [] [⟨0, 1, "hi"⟩] =
      [mkBlock "UNKNOWN" (([⟨0, 1, "hi"⟩] : List TranscriptSeg).map stripT)] :=
  (empty_diarization 0 1 [⟨0, 1, "hi"⟩]).2.2 (by simp)

/-! ### Lemmas about whitespace normalization -/

theorem splitAux_tokens (s : List Char) :
    ∀ (acc : List Char), (∀ c ∈ acc, c.isWhitespace = false) →
    ∀ w ∈ splitAux s acc, w ≠ [] ∧ ∀ c ∈ w, c.isWhitespace = false := by
  induction s with
  | nil =>
    intro acc hacc w hw
    by_cases h : acc = []
    · simp [splitAux, h] at hw
    · simp only [splitAux, if_neg h, List.mem_singleton] at hw
      subst hw
      refine ⟨by simpa using h, ?_⟩
      intro c hc
      exact hacc c (List.mem_reverse.mp hc)
  | cons c cs ih =>
    intro acc hacc w hw
    by_cases hws : c.isWhitespace = true
    · by_cases h : acc = []
      · simp only [splitAux, if_pos hws, if_pos h] at hw
        exact ih [] (by simp) w hw
      · simp only [splitAux, if_pos hws, if_neg h, List.mem_cons] at hw
        rcases hw with rfl | hw
        · refine ⟨by simpa using h, ?_⟩
          intro x hx
          exact hacc x (List.mem_reverse.mp hx)
        · exact ih [] (by simp) w hw
    · simp only [splitAux, if_neg hws] at hw
      refine ih (c :: acc) ?_ w hw
      intro x hx
      rcases List.mem_cons.mp hx with rfl | hx
      · exact Bool.not_eq_true _ ▸ hws
      · exact hacc x hx

theorem pySplit_tokens (s : List Char) :
    ∀ w ∈ pySplit s, w ≠ [] ∧ ∀ c ∈ w, c.isWhitespace = false :=
  splitAux_tokens s [] (by simp)

theorem splitAux_append_space (ys : List Char) :
    ∀ (xs acc : List Char),
    splitAux (xs ++ ' ' :: ys) acc = splitAux xs acc ++ splitAux ys [] := by
  intro xs
  induction xs with
  | nil =>
    intro acc
    simp only [List.nil_append, splitAux]
    rw [if_pos (by decide : (' ').isWhitespace = true)]
    by_cases h : acc = []
    · rw [if_pos h, if_pos h]
      simp
    · rw [if_neg h, if_neg h]
      simp
  | cons c cs ih =>
    intro acc
    simp only [List.cons_append, splitAux, List.append_eq]
    by_cases hws : c.isWhitespace = true
    · rw [if_pos hws, if_pos hws]
      by_cases h : acc = []
      · rw [if_pos h, if_pos h, ih []]
      · rw [if_neg h, if_neg h, ih []]
        simp
    · rw [if_neg hws, if_neg hws, ih (c :: acc)]

theorem pySplit_joinSpace (buf : List (List Char)) :
    pySplit (joinSpace buf) = (buf.map pySplit).flatten := by
  induction buf with
  | nil => rfl
  | cons x rest ih =>
    cases rest with
    | nil => simp [joinSpace, pySplit]
    | cons y rest2 =>
      simp only [joinSpace, pySplit, List.map_cons, List.flatten_cons]
      rw [splitAux_append_space (joinSpace (y :: rest2)) x []]
      rw [show splitAux (joinSpace (y :: rest2)) [] = pySplit (joinSpace (y :: rest2))
        from rfl, ih]
      simp [pySplit]

theorem chain_of_no_ws (w : List Char) (h : ∀ c ∈ w, c.isWhitespace = false) :
    List.Chain' (fun a b => ¬(a.isWhitespace = true ∧ b.isWhitespace = true)) w := by
  induction w with
  | nil => simp
  | cons c cs ih =>
    rw [List.chain'_cons']
    refine ⟨?_, ih (fun x hx => h x (by simp [hx]))⟩
    intro y _ hcon
    rw [h c (by simp)] at hcon
    exact Bool.false_ne_true hcon.1

theorem wsNormalized_of_no_ws (w : List Char)
    (h : ∀ c ∈ w, c.isWhitespace = false) : wsNormalized w := by
  refine ⟨?_, chain_of_no_ws w h, ?_, ?_⟩
  · intro c hc hcw
    rw [h c hc] at hcw
    exact absurd hcw Bool.false_ne_true
  · cases hw : w.head? with
    | none => rfl
    | some c =>
      have hc : c ∈ w := List.mem_of_mem_head? (by rw [hw]; rfl)
      simp [h c hc]
  · cases hw : w.getLast? with
    | none => rfl
    | some c =>
      have hc : c ∈ w := List.mem_of_mem_getLast? (by rw [hw]; rfl)
      simp [h c hc]

theorem joinSpace_ne_nil (w2 : List Char) (rest2 : List (List Char))
    (h : w2 ≠ []) : joinSpace (w2 :: rest2) ≠ [] := by
  cases rest2 with
  | nil => exact h
  | cons y r =>
    simp only [joinSpace]
    intro hc
    rcases List.append_eq_nil.mp hc with ⟨h1, _⟩
    exact h h1

theorem wsNormalized_joinSpace (tokens : List (List Char))
    (h : ∀ w ∈ tokens, w ≠ [] ∧ ∀ c ∈ w, c.isWhitespace = false) :
    wsNormalized (joinSpace tokens) := by
  induction tokens with
  | nil => exact ⟨by simp [joinSpace], by simp [joinSpace], rfl, rfl⟩
  | cons w rest ih =>
    cases rest with
    | nil => exact wsNormalized_of_no_ws w (h w (by simp)).2
    | cons w2 rest2 =>
      have hw : w ≠ [] := (h w (by simp)).1
      have hwc : ∀ c ∈ w, c.isWhitespace = false := (h w (by simp)).2
      have ihJ : wsNormalized (joinSpace (w2 :: rest2)) :=
        ih (fun x hx => h x (by simp [hx]))
      have hJne : joinSpace (w2 :: rest2) ≠ [] :=
        joinSpace_ne_nil w2 rest2 (h w2 (by simp)).1
      obtain ⟨ih1, ih2, ih3, ih4⟩ := ihJ
      show wsNormalized (w ++ ' ' :: joinSpace (w2 :: rest2))
      refine ⟨?_, ?_, ?_, ?_⟩
      · intro c hc hcw
        rcases List.mem_append.mp hc with hm | hm
        · rw [hwc c hm] at hcw
          exact absurd hcw Bool.false_ne_true
        · rcases List.mem_cons.mp hm with rfl | hm
          · rfl
          · exact ih1 c hm hcw
      · rw [List.chain'_append]
        refine ⟨chain_of_no_ws w hwc, ?_, ?_⟩
        · rw [List.chain'_cons']
          refine ⟨?_, ih2⟩
          intro y hy hcon
          have hyJ : y ∈ (joinSpace (w2 :: rest2)).head? := hy
          cases hh : (joinSpace (w2 :: rest2)).head? with
          | none => rw [hh] at hyJ; exact absurd hyJ (by simp)
          | some z =>
            rw [hh] at hyJ
            have hz : z = y := by simpa using hyJ
            subst hz
            rw [hh] at ih3
            simp only [Option.all_some] at ih3
            simp only [Bool.not_eq_true'] at ih3
            rw [ih3] at hcon
            exact Bool.false_ne_true hcon.2
        · intro x hx y hy
          have hxw : x ∈ w := List.mem_of_mem_getLast? hx
          intro hcon
          rw [hwc x hxw] at hcon
          exact Bool.false_ne_true hcon.1
      · rw [List.head?_append_of_ne_nil w hw]
        cases hh : w.head? with
        | none => rfl
        | some c =>
          have hc : c ∈ w := List.mem_of_mem_head? (by rw [hh]; rfl)
          simp [hwc c hc]
      · rw [@List.getLast?_append_of_ne_nil Char w (' ' :: joinSpace (w2 :: rest2))
          (by simp)]
        rw [show (' ' :: joinSpace (w2 :: rest2)) = [' '] ++ joinSpace (w2 :: rest2)
          from rfl]
        rw [List.getLast?_append_of_ne_nil [' '] hJne]
        exact ih4

theorem wsNormalized_cleanup (buf : List (List Char)) :
    wsNormalized (cleanup buf) :=
  wsNormalized_joinSpace (pySplit (joinSpace buf)) (pySplit_tokens (joinSpace buf))

theorem mergeBlocks_text_cleanup (runs : List Segment) (ts : List TranscriptSeg)
    (b : Block) (hb : b ∈ mergeBlocks runs ts) :
    ∃ buf, b.text = cleanup buf := by
  rw [mergeBlocks_chunks] at hb
  rcases List.mem_map.mp hb with ⟨g, _, hg⟩
  cases g with
  | nil =>
    refine ⟨[], ?_⟩
    rw [← hg]
    rfl
  | cons t g' =>
    refine ⟨(t :: g').map stripT, ?_⟩
    rw [← hg]
    rfl

/-! ### Claim about whitespace normalization -/

/-- C6: every emitted block's text is the buffered texts reduced to their
whitespace-free words and joined with single spaces; consequently it has
every internal whitespace run collapsed to a single space and no leading or
trailing whitespace; in particular the buffered texts "foo  " and " bar"
produce exactly "foo bar". -/
theorem whitespace_normalization (runs : List Segment) (ts : List TranscriptSeg)
    (b : Block) :
    (b ∈ mergeBlocks runs ts → wsNormalized b.text)
    ∧ (∀ buf, cleanup buf = joinSpace ((buf.map pySplit).flatten))
    ∧ cleanup ["foo  ".toList, " bar".toList] = "foo bar".toList := by
  refine ⟨?_, ?_, by decide⟩
  · intro hb
    obtain ⟨buf, hbuf⟩ := mergeBlocks_text_cleanup runs ts b hb
    rw [hbuf]
    exact wsNormalized_cleanup buf
  · intro buf
    rw [cleanup, pySplit_joinSpace]

/-- Witness for C6: the sole block produced from two segments with messy
whitespace has normalized text. -/
theorem whitespace_normalization_witness :
    wsNormalized (Block.mk "A" ("foo bar".toList)).text :=
  (whitespace_normalization [⟨0, 4, "A"⟩]
      [⟨0, 1, "foo  "⟩, ⟨1, 2, " bar"⟩] (Block.mk "A" ("foo bar".toList))).1
    (by with_unfolding_all decide)

/-! ### End-to-end example -/

/-- C8: coalescing the two diarization segments and aligning the three
transcript segments of the worked example produces exactly two output
blocks, formatted as the two expected lines. -/
theorem end_to_end_example :
    (mergeBlocks
      (join_consecutive_speaker_intervals
        [⟨0, 2, "SPEAKER_00"⟩, ⟨2, 4, "SPEAKER_01"⟩])
      [⟨mkRat 1 2, mkRat 3 2, "Hallo,"⟩, ⟨mkRat 8 5, mkRat 19 10, "hallo"⟩,
       ⟨mkRat 5 2, mkRat 7 2, "Halli hallo!"⟩]).map formatLine
    = ["[[SPEAKER_00]]: Hallo, hallo", "[[SPEAKER_01]]: Halli hallo!"] := by
  with_unfolding_all decide

end MergeDiarization
